import Mathlib

/-!
Verification development for the HydroChrono wave-force core
(`src/wave_types.cpp`).  The C++ functions are shallowly embedded as Lean
functions: exact rational arithmetic (`ℚ`) models the double-precision
computations whose claims concern branching, indexing and window logic, and
real arithmetic (`ℝ`) models the transcendental formulas (`cos`, `tanh`,
`exp`, `sqrt`, `pow`).  Stateful C++ loops become explicit recursion or
folds; fallible code returns `Except`/`Option`.
-/

namespace HydroChrono

/-! ## Eigen helpers

`Eigen::VectorXd::LinSpaced(n, a, b)` produces `n` points `a + i·step` with
`step = (b - a)/(n - 1)`; over exact arithmetic the last point is exactly
`b`.  (For `n = 1` Eigen degenerates; all theorems below that rely on
`linspaced` assume `2 ≤ n`.) -/
def linspaced (n : ℕ) (a b : ℚ) : List ℚ :=
  (List.range n).map (fun i : ℕ => a + (i : ℚ) * ((b - a) / ((n : ℚ) - 1)))

/-! ## IrregularWaves::CalculateWidthIRF (wave_types.cpp:379-395)

`width[ii] = 0; if (ii < size-1) width[ii] += 0.5*|t[ii+1]-t[ii]|;
if (ii > 0) width[ii] += 0.5*|t[ii]-t[ii-1]|;` -/
def calculateWidthIRF (times : List ℚ) : List ℚ :=
  (List.range times.length).map (fun ii =>
    (if ii < times.length - 1 then (1/2 : ℚ) * |times.getD (ii+1) 0 - times.getD ii 0| else 0) +
    (if 0 < ii then (1/2 : ℚ) * |times.getD ii 0 - times.getD (ii-1) 0| else 0))

/-- Per-body excitation-IRF state: the sampled time grid, the trapezoidal
integration widths and the 6×N value matrix (stored here as the list of its
columns, one column per time sample). -/
structure IRFData where
  times : List ℚ
  widths : List ℚ
  vals : List (List ℚ)

/-! ## IrregularWaves::ResampleIRF (wave_types.cpp:343-377)

The Eigen cubic-spline fit (`Eigen::SplineFitting`, an external library) is
abstracted as the parameter `spline`, taking the old value matrix, the
`[0,1]`-normalized old parameterization and an evaluation point; no claim
constrains the interpolated values themselves.  The body: `t0 = told[0];
t1 = told[size-1]; times = LinSpaced(ceil((t1-t0)/dt), t0, t1);` widths are
recomputed from the new grid and the value matrix is re-evaluated at the
`[0,1]`-normalized new grid; all three fields are replaced in one step. -/
def resampleIRF (spline : List (List ℚ) → List ℚ → ℚ → List ℚ)
    (d : IRFData) (dt : ℚ) : IRFData :=
  let t0 := d.times.headD 0
  let t1 := d.times.getLastD 0
  let n : ℕ := (⌈(t1 - t0) / dt⌉).toNat
  let newTimes := linspaced n t0 t1
  let tOldScaled := linspaced d.times.length 0 1
  let tNewScaled := linspaced n 0 1
  { times := newTimes
    widths := calculateWidthIRF newTimes
    vals := (List.range n).map (fun i => spline d.vals tOldScaled (tNewScaled.getD i 0)) }

/-- ResampleIRF loops over the bodies, transforming each body's table in
place with the same `dt` (wave_types.cpp:344). -/
def resampleIRFAll (spline : List (List ℚ) → List ℚ → ℚ → List ℚ)
    (ds : List IRFData) (dt : ℚ) : List IRFData :=
  ds.map (fun d => resampleIRF spline d dt)

/-! ## get_lower_index -/

/-- Modelled from the spec: `get_lower_index` (declared in
`hydroc/helper.h`, whose implementation is not among the provided sources)
locates the bracketing pair of history samples around a query time that
lies strictly inside the history window — the largest index `idx` with
`xs[idx] ≤ t`, so that `xs[idx] ≤ t < xs[idx+1]` for an ascending `xs`.
For an ascending list this is the number of entries `≤ t`, minus one. -/
def getLowerIndex (t : ℚ) (xs : List ℚ) : ℕ :=
  xs.countP (fun x => decide (x ≤ t)) - 1

/-! ## The cursor walk-back loop (wave_types.cpp:563-565)

`while (free_surface_time_sampled_[idx] > t_tau) { idx -= 1; }` with `idx`
a C++ `int` that is decremented without any lower clamp.  The embedding
makes the would-be negative access observable: the loop result is `none`
exactly when the condition `fs[idx] > t_tau` would be evaluated at a
negative `idx` (reading `std::vector` storage out of bounds), and
`some idx` when the loop exits normally at a non-negative index.  The fuel
argument dominates the number of decrements (the index strictly decreases),
so `walkback` below is total and exact. -/
def walkbackF (fsT : List ℚ) (t_tau : ℚ) : ℕ → ℤ → Option ℕ
  | 0, _ => none
  | fuel+1, idx =>
    if idx < 0 then none
    else if fsT.getD idx.toNat 0 > t_tau then walkbackF fsT t_tau fuel (idx - 1)
    else some idx.toNat

def walkback (fsT : List ℚ) (t_tau : ℚ) (idx : ℤ) : Option ℕ :=
  walkbackF fsT t_tau (idx.toNat + 2) idx

/-- Failure modes of `IrregularWaves::ExcitationConvolution`:
`domain` is the out-of-window `std::runtime_error` (wave_types.cpp:596),
`wrongTau` the "wrong tau value" `std::runtime_error` (wave_types.cpp:587),
and `negIdx` marks the walk-back loop reading the free-surface history at a
negative index (undefined behaviour in the C++). -/
inductive ConvErr where
  | domain : ConvErr
  | wrongTau : ConvErr
  | negIdx : ConvErr
deriving DecidableEq, Repr

/-! ## IrregularWaves::ExcitationConvolution (wave_types.cpp:537-605)

The per-body state enters as the free-surface time/elevation samples
`fsT`/`fsE`, the IRF time grid `irfT`, the selected DOF's row of the IRF
matrix `irfRow` and the width array `width`.  Two transcription notes,
both deliberate (they reproduce source defects):
* the exact-match branches (lines 573-576) read
  `free_surface_time_sampled_` — a *time* value — where an elevation is
  required;
* the interior branch (line 585) declares a fresh `auto eta_val`,
  shadowing the outer `double eta_val;`, so the value later multiplied
  into `f_ex` is the outer variable, still uninitialized.  The
  indeterminate double is modelled by the explicit parameter `junk`.  -/
def convLoop (fsT fsE : List ℚ) (tmin tmax : ℚ) (irfRow width : List ℚ)
    (junk time : ℚ) : List (ℕ × ℚ) → ℤ → ℚ → Except ConvErr ℚ
  | [], _, acc => .ok acc
  | (j, tau) :: rest, idx, acc =>
    let t_tau := time - tau
    if tmin ≤ t_tau ∧ t_tau ≤ tmax then
      match walkback fsT t_tau idx with
      | none => .error .negIdx
      | some idx1 =>
        let t1 := fsT.getD idx1 0
        let t2 := fsT.getD (idx1 + 1) 0
        let etaVal : Except ConvErr ℚ :=
          if t_tau = t1 then .ok (fsT.getD idx1 0)
          else if t_tau = t2 then .ok (fsT.getD (idx1 + 1) 0)
          else if t1 < t_tau ∧ t_tau < t2 then .ok junk
          else .error .wrongTau
        match etaVal with
        | .error e => .error e
        | .ok v =>
          convLoop fsT fsE tmin tmax irfRow width junk time rest idx1
            (acc + irfRow.getD j 0 * v * width.getD j 0)
    else .error .domain

def excitationConvolution (fsT fsE irfT irfRow width : List ℚ)
    (junk time : ℚ) : Except ConvErr ℚ :=
  let tmin := fsT.headD 0
  let tmax := fsT.getLastD 0
  let t_tau0 := time - irfT.getD 0 0
  let idx0 : ℤ :=
    if t_tau0 ≤ tmin then 0
    else if t_tau0 ≥ tmax then (fsT.length : ℤ) - 2
    else (getLowerIndex t_tau0 fsT : ℤ)
  convLoop fsT fsE tmin tmax irfRow width junk time irfT.enum idx0 0

/-! ## ConvolutionEngine contract (spec §4.5) -/

/-- Modelled from the spec (§4.5), for comparison with the source: the
elevation `η(s)` obtained from the free-surface history by using the stored
*elevation* at an exact-match sample time and the linear interpolation of
the two bracketing *elevation* values strictly inside a bracket. -/
def etaAtSpec (fsT fsE : List ℚ) (s : ℚ) : ℚ :=
  let k := getLowerIndex s fsT
  if s = fsT.getD k 0 then fsE.getD k 0
  else if s = fsT.getD (k+1) 0 then fsE.getD (k+1) 0
  else
    let w1 := (fsT.getD (k+1) 0 - s) / (fsT.getD (k+1) 0 - fsT.getD k 0)
    w1 * fsE.getD k 0 + (1 - w1) * fsE.getD (k+1) 0

/-- Modelled from the spec (§4.5): the contracted convolution value
`f_ex = Σ_j IRF[dof, j] · η(t − τ_j) · width_j` with `η` drawn from
elevation values. -/
def excitationConvolutionSpec (fsT fsE irfT irfRow width : List ℚ)
    (time : ℚ) : ℚ :=
  (List.range irfT.length).foldl
    (fun acc j => acc + irfRow.getD j 0 * etaAtSpec fsT fsE (time - irfT.getD j 0) * width.getD j 0) 0

/-! ## IrregularWaves::CreateFreeSurfaceElevation, time grid part
(wave_types.cpp:469-498)

`num_timesteps = (int)(duration/dt) + 1` (truncation = floor for the
positive durations and steps the theorems assume); `t_irf_min`/`t_irf_max`
start at `0.0` and are folded over every body's first and last IRF time
(wave_types.cpp:474-489); the grid is
`LinSpaced(num_timesteps, 0, duration + 2*(t_irf_max - t_irf_min))`
shifted by `-t_irf_max` (wave_types.cpp:491-498).  Only the resulting time
samples matter to the window claims, so the elevation synthesis that
follows in the source is not repeated here. -/
def irfMinMaxStep (p : ℚ × ℚ) (g : List ℚ) : ℚ × ℚ :=
  (min (min p.1 (g.headD 0)) (g.getLastD 0),
   max (max p.2 (g.headD 0)) (g.getLastD 0))

def irfMinMax (irfGrids : List (List ℚ)) : ℚ × ℚ :=
  irfGrids.foldl irfMinMaxStep (0, 0)

def freeSurfaceTimes (irfGrids : List (List ℚ)) (duration dt : ℚ) : List ℚ :=
  let n : ℕ := (⌊duration / dt⌋ + 1).toNat
  let p := irfMinMax irfGrids
  let ta := linspaced n 0 (duration + 2 * (p.2 - p.1))
  ta.map (fun t => t + (- p.2))

/-! ## CreateFreeSurface3DPts (wave_types.cpp:169-182) -/
def createFreeSurface3DPts (eta tvec : List ℚ) : List (ℚ × ℚ × ℚ) :=
  (List.range tvec.length).flatMap (fun i =>
    [(-(tvec.getD i 0), -10, eta.getD i 0), (-(tvec.getD i 0), 10, eta.getD i 0)])

/-! ## CreateFreeSurfaceTriangles (wave_types.cpp:184-193)

The loop bound is `eta_size / 2 - 1` computed in `size_t`, so for
`eta_size ≤ 1` the subtraction wraps around modulo `2^64` (the platform's
64-bit `size_t`); `triBound` reproduces that arithmetic exactly. -/
def triBound (n : ℕ) : ℕ := (n / 2 + (2 ^ 64 - 1)) % 2 ^ 64

def createFreeSurfaceTriangles (etaSize : ℕ) : List (ℕ × ℕ × ℕ) :=
  (List.range (triBound etaSize)).flatMap (fun i =>
    [(2*i, 2*i + 1, 2*i + 3), (2*i, 2*i + 3, 2*i + 2)])

/-! ## IrregularWaves::SetUpWaveMesh (wave_types.cpp:607-616)

`num_timesteps = (int)(duration/dt) + 1;
time_index = LinSpaced(num_timesteps, 0, duration);` then the point list is
built from the elevation series and `time_index`, and the triangle list
from `time_index.size()` — the *sample* count, not the point count. -/
def setUpWaveMeshData (eta : List ℚ) (duration dt : ℚ) :
    List (ℚ × ℚ × ℚ) × List (ℕ × ℕ × ℕ) :=
  let n : ℕ := (⌊duration / dt⌋ + 1).toNat
  let timeIndex := linspaced n 0 duration
  (createFreeSurface3DPts eta timeIndex, createFreeSurfaceTriangles timeIndex.length)

/-! ## Spectra (wave_types.cpp:436-467), over `ℝ`

`PiersonMoskowitzSpectrumHz` first sorts the frequency vector in place and
then maps the PM density formula over it; `JONSWAPSpectrumHz` starts from
the PM densities and scales entry `i` using the (sorted) frequency `f[i]`.
`std::pow(x, -5)` and `std::pow(x, -4)` on a positive base agree with the
integer `zpow`, and `std::pow(gamma, e)` with real exponentiation
(`Real.rpow`). -/
noncomputable def pmDensity (Hs Tp x : ℝ) : ℝ :=
  1.25 * (1 / Tp) ^ 4 * (Hs / 2) ^ 2 * x ^ (-5 : ℤ) *
    Real.exp (-1.25 * (1 / Tp) ^ 4 * x ^ (-4 : ℤ))

noncomputable def piersonMoskowitzSpectrumHz (f : List ℝ) (Hs Tp : ℝ) : List ℝ :=
  (f.mergeSort (fun a b => decide (a ≤ b))).map (pmDensity Hs Tp)

noncomputable def jonswapScale (Tp gamma x : ℝ) : ℝ :=
  let sigma : ℝ := if x ≤ 1 / Tp then 0.07 else 0.09
  gamma ^ Real.exp (-(1 / (2 * sigma ^ 2)) * (x * Tp - 1) ^ 2)

noncomputable def jonswapSpectrumHz (f : List ℝ) (Hs Tp gamma : ℝ) : List ℝ :=
  let fs := f.mergeSort (fun a b => decide (a ≤ b))
  List.zipWith (fun x s => s * jonswapScale Tp gamma x) fs
    (piersonMoskowitzSpectrumHz f Hs Tp)

/-! ## RegularWave::GetForceAtTime (wave_types.cpp:50-62), over `ℝ`

`f[6b + r] = mag[6b + r] * amplitude * cos(omega * t + phase[r])` — note
the phase lookup drops the body offset and always reads body 0's slot
(`excitation_force_phase_[rowEx]`, line 58). -/
noncomputable def regularGetForceAtTime (numBodies : ℕ) (mag phase : List ℝ)
    (amplitude omega t : ℝ) : List ℝ :=
  (List.range (6 * numBodies)).map (fun i =>
    mag.getD i 0 * amplitude * Real.cos (omega * t + phase.getD (i % 6) 0))

/-- The per-body/per-DOF force asserted by the claim: entry `6·b + d` uses
that same body's interpolated phase, `phase[6·b + d]`. -/
noncomputable def regularGetForceAtTimeSpec (numBodies : ℕ) (mag phase : List ℝ)
    (amplitude omega t : ℝ) : List ℝ :=
  (List.range (6 * numBodies)).map (fun i =>
    mag.getD i 0 * amplitude * Real.cos (omega * t + phase.getD i 0))

/-! ## ComputeWaveNumbers (wave_types.cpp:89-119), over `ℝ`

`k = omega^2/g; error = 1.0; while (error > tol && iter < maxIter) {
tanh_kh = tanh(k*depth); f = omega^2 - g*k*tanh_kh;
df = -2*g*tanh_kh - g*k*depth*(1 - tanh_kh^2); delta = f/df;
k -= delta; error = |delta|; }` — the fuel counts the remaining allowed
iterations. -/
noncomputable def newtonDelta (g depth omega k : ℝ) : ℝ :=
  let tanh_kh := Real.tanh (k * depth)
  (omega * omega - g * k * tanh_kh) /
    (-2 * g * tanh_kh - g * k * depth * (1 - tanh_kh * tanh_kh))

noncomputable def solveLoop (g depth omega tol : ℝ) : ℕ → ℝ → ℝ → ℝ
  | 0, _, k => k
  | fuel+1, err, k =>
    if err > tol then
      let delta := newtonDelta g depth omega k
      solveLoop g depth omega tol fuel |delta| (k - delta)
    else k

noncomputable def computeWaveNumbers (omegas : List ℝ) (depth : ℝ)
    (g : ℝ := 9.81) (tol : ℝ := 1e-6) (maxIter : ℕ := 100) : List ℝ :=
  omegas.map (fun omega => solveLoop g depth omega tol maxIter 1 (omega * omega / g))

/-- The claim's description of the solver, taken literally: starting from
`k₀ = ω²/g` it applies Newton updates and stops as soon as the update just
applied satisfies `|Δk| < tol`, or after `maxIter` iterations; the last
iterate is returned. -/
noncomputable def solveClaimStrict (g depth omega tol : ℝ) : ℕ → ℝ → ℝ
  | 0, k => k
  | fuel+1, k =>
    let delta := newtonDelta g depth omega k
    if |delta| < tol then k - delta
    else solveClaimStrict g depth omega tol fuel (k - delta)

/-- The amended description: identical to `solveClaimStrict` except that
the stopping test is `|Δk| ≤ tol` — the complement of the loop guard
`error > tolerance` actually in the source. -/
noncomputable def solveClaimAmended (g depth omega tol : ℝ) : ℕ → ℝ → ℝ
  | 0, k => k
  | fuel+1, k =>
    let delta := newtonDelta g depth omega k
    if |delta| ≤ tol then k - delta
    else solveClaimAmended g depth omega tol fuel (k - delta)

/-! ## FreeSurfaceElevation (wave_types.cpp:121-167), over `ℝ`

`delta_f = freqs(last)/freqs.size(); omegas[i] = 2π·freqs[i];
wave_numbers = ComputeWaveNumbers(omegas, depth)` (computed with the
default `g`, `tol`, `maxIter` and — in the source — never used afterwards);
`A[i] = 2·densities[i]·delta_f; sqrt_A[i] = sqrt(A[i]);
omegas_t[i][j] = t[i]·omegas[j]`; one phase per frequency bin drawn from
`std::mt19937 rng(seed)` through `uniform_real_distribution(0, 2π)` — the
C++ standard pins both down as deterministic functions of the seed, which
the embedding abstracts as the parameter `draw`; finally
`eta[j] += sqrt_A[i]·cos(omegas_t[j][i] + phases[i])` accumulated over
`i < densities.size()` into a zero-initialized vector. -/
noncomputable def freeSurfaceElevation (draw : ℤ → ℕ → ℝ)
    (freqs dens timeIdx : List ℝ) (depth : ℝ) (seed : ℤ) : List ℝ :=
  let delta_f := freqs.getLastD 0 / (freqs.length : ℝ)
  let omegas := freqs.map (fun x => 2 * Real.pi * x)
  let _wave_numbers := computeWaveNumbers omegas depth
  let A := dens.map (fun s => 2 * s * delta_f)
  let sqrt_A := A.map Real.sqrt
  let omegas_t := timeIdx.map (fun t => omegas.map (fun w => t * w))
  let phases := (List.range omegas.length).map (draw seed)
  (List.range dens.length).foldl
    (fun eta i =>
      eta.mapIdx (fun j v =>
        v + sqrt_A.getD i 0 * Real.cos ((omegas_t.getD j []).getD i 0 + phases.getD i 0)))
    (List.replicate timeIdx.length 0)

/-- The amplitude envelope `√A_i = √(2·density_i·Δf)`, `Δf = lastFreq/N`:
a function of the spectrum only — the seed does not occur. -/
noncomputable def sqrtAmp (freqs dens : List ℝ) (i : ℕ) : ℝ :=
  Real.sqrt (2 * dens.getD i 0 * (freqs.getLastD 0 / (freqs.length : ℝ)))

/-- The phase actually entering component `i`: the drawn phase for bins
that exist, and the `0.0`-default of the phase vector lookup otherwise. -/
noncomputable def phaseUsed (draw : ℤ → ℕ → ℝ) (seed : ℤ) (freqs : List ℝ)
    (i : ℕ) : ℝ :=
  if i < freqs.length then draw seed i else 0

/-- Closed form of the synthesis asserted by the claim:
`η(t_j) = Σ_i √A_i · cos(ω_i·t_j + φ_i)` with the envelope factored out of
the seed-dependent phases. -/
noncomputable def freeSurfaceClosedForm (draw : ℤ → ℕ → ℝ)
    (freqs dens timeIdx : List ℝ) (seed : ℤ) : List ℝ :=
  timeIdx.map (fun t =>
    ∑ i ∈ Finset.range dens.length,
      sqrtAmp freqs dens i *
        Real.cos (t * (2 * Real.pi * freqs.getD i 0) + phaseUsed draw seed freqs i))

/-! ## General helper lemmas -/

theorem headD_eq_getD {α : Type} (l : List α) (d : α) : l.headD d = l.getD 0 d := by
  cases l <;> rfl

theorem getLastD_eq_getD {α : Type} (l : List α) (d : α) :
    l.getLastD d = l.getD (l.length - 1) d := by
  induction l generalizing d with
  | nil => rfl
  | cons a tl ih =>
    rw [List.getLastD_cons, ih a]
    cases tl with
    | nil => rfl
    | cons b tb =>
      have h : tb.length < (b :: tb).length := by simp
      simp only [List.length_cons, Nat.add_sub_cancel]
      rw [List.getD_eq_getElem _ _ (by simp), List.getD_eq_getElem _ _ (by simp),
        List.getElem_cons_succ]

theorem sorted_getD_mono {l : List ℚ} (hs : l.Sorted (· ≤ ·)) {i j : ℕ}
    (hij : i ≤ j) (hj : j < l.length) (d : ℚ) : l.getD i d ≤ l.getD j d := by
  rw [List.getD_eq_getElem _ _ (lt_of_le_of_lt hij hj), List.getD_eq_getElem _ _ hj]
  exact hs.rel_get_of_le (a := ⟨i, lt_of_le_of_lt hij hj⟩) (b := ⟨j, hj⟩) hij

theorem sorted_headD_le {l : List ℚ} (hs : l.Sorted (· ≤ ·)) {x : ℚ}
    (hx : x ∈ l) (d : ℚ) : l.headD d ≤ x := by
  cases l with
  | nil => cases hx
  | cons a tl =>
    rcases List.mem_cons.1 hx with rfl | h
    · simp [List.headD]
    · exact (List.sorted_cons.1 hs).1 _ h

theorem getLastD_mem {α : Type} {l : List α} (h : l ≠ []) (d : α) :
    l.getLastD d ∈ l := by
  induction l generalizing d with
  | nil => exact absurd rfl h
  | cons a tl ih =>
    rw [List.getLastD_cons]
    cases tl with
    | nil => simp [List.getLastD]
    | cons b tb => exact List.mem_cons_of_mem _ (ih (by simp) a)

theorem sorted_le_getLastD {l : List ℚ} (hs : l.Sorted (· ≤ ·)) {x : ℚ}
    (hx : x ∈ l) (d : ℚ) : x ≤ l.getLastD d := by
  induction l generalizing d with
  | nil => cases hx
  | cons a tl ih =>
    rw [List.getLastD_cons]
    rcases List.mem_cons.1 hx with rfl | h
    · cases tl with
      | nil => simp [List.getLastD]
      | cons b tb =>
        exact (List.sorted_cons.1 hs).1 _ (getLastD_mem (by simp) x)
    · exact ih (List.sorted_cons.1 hs).2 h a

/-! ## linspaced lemmas -/

theorem linspaced_length (n : ℕ) (a b : ℚ) : (linspaced n a b).length = n := by
  unfold linspaced
  rw [List.length_map, List.length_range]

theorem linspaced_getD {n i : ℕ} (hi : i < n) (a b : ℚ) :
    (linspaced n a b).getD i 0 = a + (i : ℚ) * ((b - a) / ((n : ℚ) - 1)) := by
  have hlen : i < (linspaced n a b).length := by rwa [linspaced_length]
  rw [List.getD_eq_getElem _ _ hlen]
  unfold linspaced
  rw [List.getElem_map, List.getElem_range]

theorem linspaced_headD {n : ℕ} (hn : 1 ≤ n) (a b : ℚ) :
    (linspaced n a b).headD 0 = a := by
  rw [headD_eq_getD, linspaced_getD hn]
  simp

theorem linspaced_getLastD {n : ℕ} (hn : 2 ≤ n) (a b : ℚ) :
    (linspaced n a b).getLastD 0 = b := by
  have h1 : n - 1 < n := Nat.sub_lt (by omega) one_pos
  rw [getLastD_eq_getD, linspaced_length, linspaced_getD h1]
  have hc : ((n - 1 : ℕ) : ℚ) = (n : ℚ) - 1 := by
    have : (1 : ℕ) ≤ n := by omega
    push_cast [this]
    ring
  have hne : ((n : ℚ) - 1) ≠ 0 := by
    have : (2 : ℚ) ≤ (n : ℚ) := by exact_mod_cast hn
    linarith
  rw [hc, mul_div_assoc', mul_comm, mul_div_assoc, div_self hne]
  ring

/-! ## irfMinMax lemmas -/

theorem irfMinMax_le_init (gs : List (List ℚ)) (p : ℚ × ℚ) :
    (gs.foldl irfMinMaxStep p).1 ≤ p.1 ∧ p.2 ≤ (gs.foldl irfMinMaxStep p).2 := by
  induction gs generalizing p with
  | nil => exact ⟨le_refl _, le_refl _⟩
  | cons g gs ih =>
    rw [List.foldl_cons]
    refine ⟨le_trans (ih _).1 ?_, le_trans ?_ (ih _).2⟩
    · exact le_trans (min_le_left _ _) (min_le_left _ _)
    · exact le_trans (le_max_left _ _) (le_max_left _ _)

theorem irfMinMax_mem (gs : List (List ℚ)) (p : ℚ × ℚ) {g : List ℚ}
    (hg : g ∈ gs) :
    (gs.foldl irfMinMaxStep p).1 ≤ g.headD 0 ∧
    g.getLastD 0 ≤ (gs.foldl irfMinMaxStep p).2 := by
  induction gs generalizing p with
  | nil => cases hg
  | cons h gs ih =>
    rw [List.foldl_cons]
    rcases List.mem_cons.1 hg with rfl | hmem
    · constructor
      · exact le_trans (irfMinMax_le_init gs (irfMinMaxStep p g)).1
          (le_trans (min_le_left _ _) (min_le_right _ _))
      · exact le_trans (le_max_right _ _)
          (irfMinMax_le_init gs (irfMinMaxStep p g)).2
    · exact ih _ hmem

theorem irfMinMax_fst_nonpos (gs : List (List ℚ)) :
    (irfMinMax gs).1 ≤ 0 ∧ 0 ≤ (irfMinMax gs).2 :=
  irfMinMax_le_init gs (0, 0)

theorem irfMinMax_bounds {gs : List (List ℚ)} {g : List ℚ} (hg : g ∈ gs) :
    (irfMinMax gs).1 ≤ g.headD 0 ∧ g.getLastD 0 ≤ (irfMinMax gs).2 :=
  irfMinMax_mem gs (0, 0) hg

theorem headD_map {f : ℚ → ℚ} {l : List ℚ} (h : l ≠ []) :
    (l.map f).headD 0 = f (l.headD 0) := by
  cases l with
  | nil => exact absurd rfl h
  | cons a tl => rfl

theorem getLastD_map {f : ℚ → ℚ} {l : List ℚ} (h : l ≠ []) :
    (l.map f).getLastD 0 = f (l.getLastD 0) := by
  have hl : 0 < l.length := List.length_pos.2 h
  rw [getLastD_eq_getD, getLastD_eq_getD, List.length_map,
    List.getD_eq_getElem _ _ (by simp; omega), List.getD_eq_getElem _ _ (by omega),
    List.getElem_map]

theorem toNat_floor_add_one {q : ℚ} {k : ℕ} (h : ⌊q⌋ + 1 = (k : ℤ)) :
    (⌊q⌋ + 1).toNat = k := by omega

theorem linspaced_ne_nil {n : ℕ} (hn : 1 ≤ n) (a b : ℚ) :
    linspaced n a b ≠ [] := by
  intro h
  have := linspaced_length n a b
  rw [h] at this
  simp at this
  omega

/-- Core facts about the synthesized free-surface time grid: the count from
the floor, and the head/last of the shifted `LinSpaced` grid. -/
theorem freeSurfaceTimes_ends (grids : List (List ℚ)) (duration dt : ℚ)
    (hdt : 0 < dt) (hdur : dt ≤ duration) :
    (freeSurfaceTimes grids duration dt).headD 0 = -(irfMinMax grids).2 ∧
    (freeSurfaceTimes grids duration dt).getLastD 0
      = duration + (irfMinMax grids).2 - 2 * (irfMinMax grids).1 := by
  have h1 : (1 : ℚ) ≤ duration / dt := (one_le_div hdt).2 hdur
  have hfl : (1 : ℤ) ≤ ⌊duration / dt⌋ := by
    rwa [Int.le_floor, Int.cast_one]
  have hn : 2 ≤ (⌊duration / dt⌋ + 1).toNat := by omega
  have hne : linspaced ((⌊duration / dt⌋ + 1).toNat) 0
      (duration + 2 * ((irfMinMax grids).2 - (irfMinMax grids).1)) ≠ [] :=
    linspaced_ne_nil (by omega) _ _
  unfold freeSurfaceTimes
  constructor
  · rw [headD_map hne, linspaced_headD (by omega)]
    ring
  · rw [getLastD_map hne, linspaced_getLastD hn]
    ring

/-- C4 counterexample input: a single (vacuously ascending) IRF grid
`[-5, 3]` starting at a negative time.  Its support is `3 - (-5) = 8`, but
the synthesized window starts at `-3`. -/
theorem freeSurfaceTimes_neg_grid_eval :
    (freeSurfaceTimes [[-5, 3]] 1 1).headD 0 = -3 := by
  have hp : irfMinMax [[-5, 3]] = (-5, 3) := by
    unfold irfMinMax irfMinMaxStep
    norm_num [List.getLastD, min_def, max_def]
  have := (freeSurfaceTimes_ends [[-5, 3]] 1 1 (by norm_num) (by norm_num)).1
  rw [hp] at this
  simpa using this

/-- C4 (counterexample): the claim asserts the synthesized free-surface
interval "extends at least as far into the past as the longest
impulse-response support".  For the single ascending IRF grid `[-5, 3]`
(support `3 - (-5) = 8`), simulation duration `1` and step `1`, the window
produced by `CreateFreeSurfaceElevation` starts at `-t_irf_max = -3`,
which does not reach `8` into the past. -/
theorem C4_counterexample :
    ¬((freeSurfaceTimes [[-5, 3]] 1 1).headD 0
        ≤ -(([(-5 : ℚ), 3]).getLastD 0 - ([(-5 : ℚ), 3]).headD 0)) := by
  rw [freeSurfaceTimes_neg_grid_eval]
  norm_num [List.getLastD_cons, List.getLastD]

/-- C4 (amended): with `p = irfMinMax grids` (the fold of `0` and all
bodies' first/last IRF times), the synthesized history interval is
`[-p.2, duration + p.2 - 2·p.1]` — the simulation duration padded by twice
the `0`-clamped IRF support, split across the two sides; every in-run
convolution lag `t - τ` (with `0 ≤ t ≤ duration` and `τ` in any body's
ascending grid) lies inside the window; and the window reaches at least
the longest IRF support into the past whenever every body's grid starts at
a non-negative time (the situation the original sentence describes). -/
theorem C4_window (grids : List (List ℚ)) (duration dt : ℚ)
    (hg : ∀ g ∈ grids, g ≠ [] ∧ g.Sorted (· ≤ ·))
    (hdt : 0 < dt) (hdur : dt ≤ duration) :
    (freeSurfaceTimes grids duration dt).headD 0 = -(irfMinMax grids).2 ∧
    (freeSurfaceTimes grids duration dt).getLastD 0
      = duration + (irfMinMax grids).2 - 2 * (irfMinMax grids).1 ∧
    (∀ g ∈ grids, ∀ τ ∈ g, ∀ t : ℚ, 0 ≤ t → t ≤ duration →
      (freeSurfaceTimes grids duration dt).headD 0 ≤ t - τ ∧
      t - τ ≤ (freeSurfaceTimes grids duration dt).getLastD 0) ∧
    ((∀ g ∈ grids, 0 ≤ g.headD 0) → ∀ g ∈ grids,
      (freeSurfaceTimes grids duration dt).headD 0
        ≤ -(g.getLastD 0 - g.headD 0)) := by
  obtain ⟨hhead, hlast⟩ := freeSurfaceTimes_ends grids duration dt hdt hdur
  have hp0 := irfMinMax_fst_nonpos grids
  refine ⟨hhead, hlast, ?_, ?_⟩
  · intro g hgmem τ hτ t ht0 htd
    obtain ⟨hne, hsort⟩ := hg g hgmem
    obtain ⟨hb1, hb2⟩ := irfMinMax_bounds hgmem
    have hτlo : (irfMinMax grids).1 ≤ τ := le_trans hb1 (sorted_headD_le hsort hτ 0)
    have hτhi : τ ≤ (irfMinMax grids).2 := le_trans (sorted_le_getLastD hsort hτ 0) hb2
    constructor
    · rw [hhead]; linarith
    · rw [hlast]; linarith
  · intro hstart g hgmem
    obtain ⟨hb1, hb2⟩ := irfMinMax_bounds hgmem
    have := hstart g hgmem
    rw [hhead]; linarith

/-- C4 (witness): the amended theorem applied to a single body with IRF
grid `[0, 2]`, duration `1` and step `1/2`. -/
theorem C4_window_witness :
    (freeSurfaceTimes [[0, 2]] 1 (1/2)).headD 0 = -(irfMinMax [[0, 2]]).2 :=
  (C4_window [[0, 2]] 1 (1/2)
    (by
      intro g hgmem
      rw [List.mem_singleton] at hgmem
      subst hgmem
      refine ⟨by simp, ?_⟩
      simp [List.sorted_cons])
    (by norm_num) (by norm_num)).1

theorem toNat_ceil_eval {q : ℚ} {k : ℕ} (h : ⌈q⌉ = (k : ℤ)) : (⌈q⌉).toNat = k := by
  omega

theorem linspaced_two (a b : ℚ) : linspaced 2 a b = [a, b] := by
  unfold linspaced
  norm_num [List.range_succ]

theorem linspaced_spacing {n : ℕ} {i : ℕ} (hi : i + 1 < n) (a b : ℚ) :
    (linspaced n a b).getD (i+1) 0 - (linspaced n a b).getD i 0
      = (b - a) / ((n : ℚ) - 1) := by
  rw [linspaced_getD hi, linspaced_getD (by omega)]
  push_cast
  ring

/-- C5 (amended): for a body's table with native grid ends `t0 < t1` and a
step `dt` giving a point count `n = ceil((t1-t0)/dt) ≥ 2`, `ResampleIRF`
replaces the grid with `n` uniformly spaced points starting exactly at
`t0`, ending exactly at `t1`, with constant spacing `(t1-t0)/(n-1)` (which
is generally larger than the requested `dt`, even when `(t1-t0)/dt` is an
integer: the count is `ceil((t1-t0)/dt)`, not `ceil((t1-t0)/dt)+1`); the
width vector is recomputed from the new grid and the value matrix is
re-evaluated on the new grid, all three fields being replaced together in
one assignment. -/
theorem C5_resample (spline : List (List ℚ) → List ℚ → ℚ → List ℚ)
    (d : IRFData) (dt : ℚ)
    (hn : 2 ≤ (⌈(d.times.getLastD 0 - d.times.headD 0) / dt⌉).toNat) :
    (resampleIRF spline d dt).times.length
      = (⌈(d.times.getLastD 0 - d.times.headD 0) / dt⌉).toNat ∧
    (resampleIRF spline d dt).times.headD 0 = d.times.headD 0 ∧
    (resampleIRF spline d dt).times.getLastD 0 = d.times.getLastD 0 ∧
    (∀ i : ℕ, i + 1 < (⌈(d.times.getLastD 0 - d.times.headD 0) / dt⌉).toNat →
      (resampleIRF spline d dt).times.getD (i+1) 0
          - (resampleIRF spline d dt).times.getD i 0
        = (d.times.getLastD 0 - d.times.headD 0)
            / (((⌈(d.times.getLastD 0 - d.times.headD 0) / dt⌉).toNat : ℚ) - 1)) ∧
    (resampleIRF spline d dt).widths
      = calculateWidthIRF ((resampleIRF spline d dt).times) ∧
    (resampleIRF spline d dt).vals.length
      = (⌈(d.times.getLastD 0 - d.times.headD 0) / dt⌉).toNat := by
  have htimes : (resampleIRF spline d dt).times
      = linspaced ((⌈(d.times.getLastD 0 - d.times.headD 0) / dt⌉).toNat)
          (d.times.headD 0) (d.times.getLastD 0) := rfl
  have hwid : (resampleIRF spline d dt).widths
      = calculateWidthIRF ((resampleIRF spline d dt).times) := rfl
  have hvals : (resampleIRF spline d dt).vals.length
      = (⌈(d.times.getLastD 0 - d.times.headD 0) / dt⌉).toNat := by
    show ((List.range _).map _).length = _
    rw [List.length_map, List.length_range]
  refine ⟨?_, ?_, ?_, ?_, hwid, hvals⟩
  · rw [htimes, linspaced_length]
  · rw [htimes, linspaced_headD (by omega)]
  · rw [htimes, linspaced_getLastD hn]
  · intro i hi
    rw [htimes, linspaced_spacing hi]

/-- C5 (counterexample): the claim says the new grid's "uniform spacing
equals the requested dt up to rounding from the ceiling count".  Take the
native grid `[0, 1]` and `dt = 1/2`: the ceiling count `ceil(1/(1/2)) = 2`
involves no rounding at all, yet the produced grid is `[0, 1]` with
spacing `1 = 2·dt`, not `dt`. -/
theorem C5_counterexample :
    ((1 : ℚ) - 0) / (1/2) = ((⌈((1 : ℚ) - 0) / (1/2)⌉ : ℤ) : ℚ) ∧
    (resampleIRF (fun _ _ _ => List.replicate 6 0)
        ⟨[0, 1], [1/2, 1/2], [[1, 1], [1, 1], [1, 1], [1, 1], [1, 1], [1, 1]]⟩
        (1/2)).times = [0, 1] ∧
    ¬((([(0 : ℚ), 1]).getD 1 0 - ([(0 : ℚ), 1]).getD 0 0) = 1/2) := by
  have hc : ⌈((1 : ℚ) - 0) / (1/2)⌉ = ((2 : ℕ) : ℤ) := by norm_num
  refine ⟨by rw [hc]; norm_num, ?_, by norm_num⟩
  have htimes : (resampleIRF (fun _ _ _ => List.replicate 6 0)
      ⟨[0, 1], [1/2, 1/2], [[1, 1], [1, 1], [1, 1], [1, 1], [1, 1], [1, 1]]⟩
      (1/2)).times
      = linspaced ((⌈(([(0:ℚ), 1]).getLastD 0 - ([(0:ℚ), 1]).headD 0) / (1/2)⌉).toNat)
          (([(0:ℚ), 1]).headD 0) (([(0:ℚ), 1]).getLastD 0) := rfl
  rw [htimes]
  have h1 : ([(0:ℚ), 1]).getLastD 0 = 1 := rfl
  have h2 : ([(0:ℚ), 1]).headD 0 = 0 := rfl
  rw [h1, h2, toNat_ceil_eval hc, linspaced_two]

/-- C5 (witness): the amended theorem applied to the native grid `[0, 1]`
with `dt = 1/3` (count `ceil(3) = 3`); the resampled grid starts exactly
at the original first timestamp. -/
theorem C5_resample_witness :
    (resampleIRF (fun _ _ _ => List.replicate 6 0)
        ⟨[0, 1], [1/2, 1/2], [[1, 1], [1, 1], [1, 1], [1, 1], [1, 1], [1, 1]]⟩
        (1/3)).times.headD 0
      = (([(0 : ℚ), 1] : List ℚ)).headD 0 :=
  (C5_resample (fun _ _ _ => List.replicate 6 0)
    ⟨[0, 1], [1/2, 1/2], [[1, 1], [1, 1], [1, 1], [1, 1], [1, 1], [1, 1]]⟩
    (1/3)
    (by
      show 2 ≤ (⌈(([(0:ℚ), 1]).getLastD 0 - ([(0:ℚ), 1]).headD 0) / (1/3)⌉).toNat
      have hc : ⌈(([(0:ℚ), 1]).getLastD 0 - ([(0:ℚ), 1]).headD 0) / (1/3)⌉
          = ((3 : ℕ) : ℤ) := by
        have h1 : ([(0:ℚ), 1]).getLastD 0 = 1 := rfl
        have h2 : ([(0:ℚ), 1]).headD 0 = 0 := rfl
        rw [h1, h2]
        norm_num
      omega)).2.1

theorem createFreeSurface3DPts_length (eta tv : List ℚ) :
    (createFreeSurface3DPts eta tv).length = 2 * tv.length := by
  unfold createFreeSurface3DPts
  rw [List.length_flatMap]
  induction tv.length with
  | zero => rfl
  | succ n ih =>
    rw [List.range_succ, List.map_append, List.sum_append, ih]
    simp
    ring

theorem setUpWaveMeshData_fst (eta : List ℚ) (duration dt : ℚ) :
    (setUpWaveMeshData eta duration dt).1
      = createFreeSurface3DPts eta
          (linspaced ((⌊duration / dt⌋ + 1).toNat) 0 duration) := by
  simp only [setUpWaveMeshData]

theorem setUpWaveMeshData_snd (eta : List ℚ) (duration dt : ℚ) :
    (setUpWaveMeshData eta duration dt).2
      = createFreeSurfaceTriangles
          ((linspaced ((⌊duration / dt⌋ + 1).toNat) 0 duration).length) := by
  simp only [setUpWaveMeshData]

/-- C9 (code evaluation at the failing input): an elevation series of
`N = 4` time samples (duration 3, step 1, so `time_index = [0,1,2,3]`).
The mesh path emits `2N = 8` points but only `2·(⌊N/2⌋ - 1) = 2`
triangles — `SetUpWaveMesh` passes the *sample* count `N` to
`CreateFreeSurfaceTriangles`, which halves its argument as if it were the
*point* count — instead of the ladder strip of `2·(N-1) = 6` triangles
covering every pair of consecutive time columns. -/
theorem C9_code_eval :
    ((⌊(3 : ℚ) / 1⌋ + 1).toNat = 4) ∧
    (setUpWaveMeshData [1, 2, 3, 4] 3 1).1.length = 2 * 4 ∧
    (setUpWaveMeshData [1, 2, 3, 4] 3 1).2 = [(0, 1, 3), (0, 3, 2)] ∧
    (setUpWaveMeshData [1, 2, 3, 4] 3 1).2.length ≠ 2 * (4 - 1) := by
  have hn : (⌊(3 : ℚ) / 1⌋ + 1).toNat = 4 := toNat_floor_add_one (by norm_num)
  have hb : triBound 4 = 1 := by
    unfold triBound
    norm_num
  have htris : createFreeSurfaceTriangles 4 = [(0, 1, 3), (0, 3, 2)] := by
    unfold createFreeSurfaceTriangles
    rw [hb]
    rfl
  refine ⟨hn, ?_, ?_, ?_⟩
  · rw [setUpWaveMeshData_fst, createFreeSurface3DPts_length, linspaced_length, hn]
  · rw [setUpWaveMeshData_snd, linspaced_length, hn, htris]
  · rw [setUpWaveMeshData_snd, linspaced_length, hn, htris]
    decide

/-- C1 (code evaluation at the failing input): free-surface history with
times `[0, 1]` and elevations `[5, 7]`, IRF grid `[0, 1]` with unit row
values and widths `[1/2, 1/2]`, query time `1`.  Both lags (`1` and `0`)
hit history sample times exactly, so only the exact-match branches run; the
source returns the *time* values (`1·1·(1/2) + 1·0·(1/2) = 1/2`) where the
§4.5 contract requires the *elevation* values
(`1·7·(1/2) + 1·5·(1/2) = 6`). -/
theorem C1_code_eval :
    excitationConvolution [0, 1] [5, 7] [0, 1] [1, 1] [1/2, 1/2] 0 1
      = .ok (1/2) ∧
    excitationConvolutionSpec [0, 1] [5, 7] [0, 1] [1, 1] [1/2, 1/2] 1 = 6 ∧
    ¬((1 : ℚ)/2 = 6) := by
  refine ⟨?_, ?_, by norm_num⟩
  · norm_num [excitationConvolution, convLoop, walkback, walkbackF, getLowerIndex,
      List.getLastD_cons, List.getLastD, List.enum, List.enumFrom]
  · norm_num [excitationConvolutionSpec, etaAtSpec, getLowerIndex, List.range_succ]

/-- C3 (code evaluation at the failing input): two bodies, all magnitudes
`1`, amplitude `1`, `ω = 1`, `t = 0`; body 0's interpolated phases are `0`
and body 1's are `π` (slots 6..11, exactly as `Initialize()` fills them).
The claim requires entry `6 = 6·1 + 0` to be `1·1·cos(0 + phase[6]) = -1`;
the source reads `excitation_force_phase_[rowEx]` — body 0's slot — and
produces `1·1·cos(0 + phase[0]) = 1`. -/
theorem C3_code_eval :
    (regularGetForceAtTime 2 [1,1,1,1,1,1,1,1,1,1,1,1]
        [0,0,0,0,0,0,Real.pi,Real.pi,Real.pi,Real.pi,Real.pi,Real.pi]
        1 1 0).getD 6 0 = 1 ∧
    (regularGetForceAtTimeSpec 2 [1,1,1,1,1,1,1,1,1,1,1,1]
        [0,0,0,0,0,0,Real.pi,Real.pi,Real.pi,Real.pi,Real.pi,Real.pi]
        1 1 0).getD 6 0 = -1 ∧
    regularGetForceAtTime 2 [1,1,1,1,1,1,1,1,1,1,1,1]
        [0,0,0,0,0,0,Real.pi,Real.pi,Real.pi,Real.pi,Real.pi,Real.pi] 1 1 0
      ≠ regularGetForceAtTimeSpec 2 [1,1,1,1,1,1,1,1,1,1,1,1]
        [0,0,0,0,0,0,Real.pi,Real.pi,Real.pi,Real.pi,Real.pi,Real.pi] 1 1 0 := by
  have h1 : (regularGetForceAtTime 2 [1,1,1,1,1,1,1,1,1,1,1,1]
      [0,0,0,0,0,0,Real.pi,Real.pi,Real.pi,Real.pi,Real.pi,Real.pi] 1 1 0).getD 6 0
      = (1:ℝ) * 1 * Real.cos (1 * 0 + 0) := rfl
  have h2 : (regularGetForceAtTimeSpec 2 [1,1,1,1,1,1,1,1,1,1,1,1]
      [0,0,0,0,0,0,Real.pi,Real.pi,Real.pi,Real.pi,Real.pi,Real.pi] 1 1 0).getD 6 0
      = (1:ℝ) * 1 * Real.cos (1 * 0 + Real.pi) := rfl
  have e1 : (regularGetForceAtTime 2 [1,1,1,1,1,1,1,1,1,1,1,1]
      [0,0,0,0,0,0,Real.pi,Real.pi,Real.pi,Real.pi,Real.pi,Real.pi] 1 1 0).getD 6 0
      = 1 := by rw [h1]; simp
  have e2 : (regularGetForceAtTimeSpec 2 [1,1,1,1,1,1,1,1,1,1,1,1]
      [0,0,0,0,0,0,Real.pi,Real.pi,Real.pi,Real.pi,Real.pi,Real.pi] 1 1 0).getD 6 0
      = -1 := by rw [h2]; simp
  refine ⟨e1, e2, fun hEq => ?_⟩
  rw [hEq, e2] at e1
  norm_num at e1

theorem pmDensity_pos {Hs Tp x : ℝ} (hHs : 0 < Hs) (hTp : 0 < Tp)
    (hx : 0 < x) : 0 < pmDensity Hs Tp x := by
  unfold pmDensity
  positivity

/-- C10: for strictly positive frequencies and `Hs, Tp, γ > 0`, every
spectral density produced by `PiersonMoskowitzSpectrumHz` and by
`JONSWAPSpectrumHz` is nonnegative (in fact positive), so the generated
spectrum satisfies the "no negative density" validity invariant. -/
theorem C10_spectra_nonneg (f : List ℝ) (Hs Tp gamma : ℝ)
    (hf : ∀ x ∈ f, 0 < x) (hHs : 0 < Hs) (hTp : 0 < Tp) (hg : 0 < gamma) :
    (∀ s ∈ piersonMoskowitzSpectrumHz f Hs Tp, 0 ≤ s) ∧
    (∀ s ∈ jonswapSpectrumHz f Hs Tp gamma, 0 ≤ s) := by
  have hmemf : ∀ x ∈ f.mergeSort (fun a b => decide (a ≤ b)), 0 < x := by
    intro x hx
    exact hf x ((List.mergeSort_perm f _).mem_iff.1 hx)
  constructor
  · intro s hs
    unfold piersonMoskowitzSpectrumHz at hs
    obtain ⟨x, hx, rfl⟩ := List.mem_map.1 hs
    exact le_of_lt (pmDensity_pos hHs hTp (hmemf x hx))
  · intro s hs
    obtain ⟨i, hi, heq⟩ := List.mem_iff_getElem.1 hs
    unfold jonswapSpectrumHz at hi heq
    rw [List.getElem_zipWith] at heq
    have hlen : i < (f.mergeSort (fun a b => decide (a ≤ b))).length := by
      rw [List.length_zipWith] at hi
      omega
    have hxpos : 0 < (f.mergeSort (fun a b => decide (a ≤ b)))[i] :=
      hmemf _ (List.getElem_mem hlen)
    have hlen2 : i < (piersonMoskowitzSpectrumHz f Hs Tp).length := by
      rw [List.length_zipWith] at hi
      omega
    have hpm : 0 < (piersonMoskowitzSpectrumHz f Hs Tp)[i] := by
      have heval : (piersonMoskowitzSpectrumHz f Hs Tp)[i]
          = pmDensity Hs Tp ((f.mergeSort (fun a b => decide (a ≤ b)))[i]) := by
        unfold piersonMoskowitzSpectrumHz
        rw [List.getElem_map]
      rw [heval]
      exact pmDensity_pos hHs hTp hxpos
    have hscale : 0 < jonswapScale Tp gamma
        ((f.mergeSort (fun a b => decide (a ≤ b)))[i]) := by
      unfold jonswapScale
      exact Real.rpow_pos_of_pos hg _
    rw [← heq]
    exact le_of_lt (mul_pos hpm hscale)

/-- C10 (witness): the theorem applied to the one-bin frequency grid `[1]`
with `Hs = Tp = γ = 1`. -/
theorem C10_spectra_nonneg_witness :
    0 ≤ (piersonMoskowitzSpectrumHz [1] 1 1).getD 0 0 ∧
    0 ≤ (jonswapSpectrumHz [1] 1 1 1).getD 0 0 := by
  have h := C10_spectra_nonneg [1] 1 1 1
    (by intro x hx; rw [List.mem_singleton] at hx; rw [hx]; norm_num)
    (by norm_num) (by norm_num) (by norm_num)
  have hlenp : 0 < (piersonMoskowitzSpectrumHz [1] 1 1).length := by
    unfold piersonMoskowitzSpectrumHz
    rw [List.length_map, List.length_mergeSort]
    norm_num
  have hlenj : 0 < (jonswapSpectrumHz [1] 1 1 1).length := by
    unfold jonswapSpectrumHz
    rw [List.length_zipWith, List.length_mergeSort]
    have : 0 < (piersonMoskowitzSpectrumHz [1] 1 1).length := hlenp
    simp only [List.length_singleton]
    omega
  constructor
  · refine h.1 _ ?_
    rw [List.getD_eq_getElem _ _ hlenp]
    exact List.getElem_mem hlenp
  · refine h.2 _ ?_
    rw [List.getD_eq_getElem _ _ hlenj]
    exact List.getElem_mem hlenj

theorem solveLoop_zero (g d w tol err k : ℝ) :
    solveLoop g d w tol 0 err k = k := rfl

theorem solveLoop_succ (g d w tol : ℝ) (fuel : ℕ) (err k : ℝ) :
    solveLoop g d w tol (fuel + 1) err k
      = if err > tol then
          solveLoop g d w tol fuel |newtonDelta g d w k| (k - newtonDelta g d w k)
        else k := rfl

theorem solveClaimStrict_zero (g d w tol k : ℝ) :
    solveClaimStrict g d w tol 0 k = k := rfl

theorem solveClaimStrict_succ (g d w tol : ℝ) (fuel : ℕ) (k : ℝ) :
    solveClaimStrict g d w tol (fuel + 1) k
      = if |newtonDelta g d w k| < tol then k - newtonDelta g d w k
        else solveClaimStrict g d w tol fuel (k - newtonDelta g d w k) := rfl

theorem solveClaimAmended_zero (g d w tol k : ℝ) :
    solveClaimAmended g d w tol 0 k = k := rfl

theorem solveClaimAmended_succ (g d w tol : ℝ) (fuel : ℕ) (k : ℝ) :
    solveClaimAmended g d w tol (fuel + 1) k
      = if |newtonDelta g d w k| ≤ tol then k - newtonDelta g d w k
        else solveClaimAmended g d w tol fuel (k - newtonDelta g d w k) := rfl

theorem solveLoop_stop {g d w tol err k : ℝ} (h : err ≤ tol) (fuel : ℕ) :
    solveLoop g d w tol fuel err k = k := by
  cases fuel with
  | zero => rfl
  | succ n =>
    rw [solveLoop_succ, if_neg]
    exact not_lt.2 h

theorem solveLoop_eq_amended (g d w tol : ℝ) :
    ∀ (fuel : ℕ) (err k : ℝ), tol < err →
      solveLoop g d w tol fuel err k = solveClaimAmended g d w tol fuel k := by
  intro fuel
  induction fuel with
  | zero => intro err k _; rfl
  | succ n ih =>
    intro err k herr
    rw [solveLoop_succ, solveClaimAmended_succ, if_pos herr]
    by_cases hδ : |newtonDelta g d w k| ≤ tol
    · rw [if_pos hδ, solveLoop_stop hδ]
    · rw [if_neg hδ, ih _ _ (lt_of_not_le hδ)]

/-- Positivity and boundedness of `tanh` on positive arguments, needed for
the dispersion-solver counterexample. -/
theorem tanh_pos_lt_one {x : ℝ} (hx : 0 < x) :
    0 < Real.tanh x ∧ Real.tanh x < 1 := by
  rw [Real.tanh_eq_sinh_div_cosh]
  constructor
  · exact div_pos (Real.sinh_pos_iff.2 hx) (Real.cosh_pos x)
  · exact (div_lt_one (Real.cosh_pos x)).2 (Real.sinh_lt_cosh x)

/-- C6 (counterexample): for `ω = 1`, depth `1`, `g = 9.81`, `tol = 1` and
`maxIter = 1`, the source's loop guard `error > tolerance` fails
immediately on the sentinel `error = 1.0`, so zero Newton updates run and
`k₀ = ω²/g` is returned; the claim's machine ("stops as soon as
|Δk| < tol or after maxIter iterations") applies one update and returns
`k₁ = k₀ - Δk₁` with `Δk₁ ≠ 0`. -/
theorem C6_counterexample :
    computeWaveNumbers [1] 1 (981/100) 1 1
      ≠ [solveClaimStrict (981/100) 1 1 1 1 ((1 * 1) / (981/100))] := by
  have hcode : computeWaveNumbers [1] 1 (981/100) 1 1
      = [(1 * 1 : ℝ) / (981/100)] := by
    unfold computeWaveNumbers
    rw [List.map_cons, List.map_nil]
    rw [(show (1 : ℕ) = 0 + 1 from rfl), solveLoop_succ, if_neg (lt_irrefl 1)]
  have hclaim : solveClaimStrict (981/100) 1 1 1 1 ((1 * 1) / (981/100))
      = (1 * 1 : ℝ) / (981/100) - newtonDelta (981/100) 1 1 ((1 * 1) / (981/100)) := by
    rw [(show (1 : ℕ) = 0 + 1 from rfl), solveClaimStrict_succ]
    split
    · rfl
    · rw [solveClaimStrict_zero]
  have hδ : newtonDelta (981/100) 1 1 ((1 * 1) / (981/100)) ≠ 0 := by
    have hk : ((1 * 1 : ℝ)) / (981/100) = 100/981 := by norm_num
    rw [hk]
    unfold newtonDelta
    obtain ⟨ht0, ht1⟩ := tanh_pos_lt_one (x := (100 : ℝ)/981 * 1) (by norm_num)
    apply div_ne_zero
    · have : (981 : ℝ)/100 * (100/981) = 1 := by norm_num
      nlinarith [ht0, ht1]
    · nlinarith [ht0, ht1]
  rw [hcode, hclaim]
  intro h
  rw [List.cons.injEq] at h
  have := h.1
  have : newtonDelta (981/100) 1 1 ((1 * 1) / (981/100)) = 0 := by linarith
  exact hδ this

/-- C6 (amended): `ComputeWaveNumbers` maps each `ω` independently (a pure
function of its arguments, defaults `g = 9.81`, `tol = 1e-6`,
`maxIter = 100`) through a Newton iteration started at `k₀ = ω²/g` with
`f(k) = ω² - g·k·tanh(k·depth)` and the analytic `f'`; when `tol < 1` (so
the sentinel `error = 1.0` passes the guard) it stops as soon as the
update just applied satisfies `|Δk| ≤ tol` — the complement of the guard
`error > tol`, not the strict `<` — or after `maxIter` iterations, and
returns the last iterate without raising any error; when `1 ≤ tol` the
sentinel already fails the guard and `k₀` is returned untouched. -/
theorem C6_dispersion (omegas : List ℝ) (depth g tol : ℝ) (maxIter : ℕ) :
    (tol < 1 → computeWaveNumbers omegas depth g tol maxIter
        = omegas.map (fun w => solveClaimAmended g depth w tol maxIter (w * w / g))) ∧
    (1 ≤ tol → computeWaveNumbers omegas depth g tol maxIter
        = omegas.map (fun w => w * w / g)) := by
  constructor
  · intro htol
    unfold computeWaveNumbers
    exact List.map_congr_left (fun w _ => solveLoop_eq_amended g depth w tol maxIter 1 _ htol)
  · intro htol
    unfold computeWaveNumbers
    exact List.map_congr_left (fun w _ => solveLoop_stop htol maxIter)

/-- C6 (witness): the amended theorem at `ω = 2`, depth `1`, `g = 1`,
`tol = 1/2`, `maxIter = 0`. -/
theorem C6_dispersion_witness :
    computeWaveNumbers [2] 1 1 (1/2) 0
      = [solveClaimAmended 1 1 2 (1/2) 0 (2 * 2 / 1)] :=
  (C6_dispersion [2] 1 1 (1/2) 0).1 (by norm_num)

theorem getD_map_lt {f : ℝ → ℝ} {l : List ℝ} {i : ℕ} (h : i < l.length) :
    (l.map f).getD i 0 = f (l[i]) := by
  rw [List.getD_eq_getElem _ _ (by simpa using h), List.getElem_map]

/-- The source's double accumulation loop (initialize `eta` with zeros, add
the `i`-th spectral component to every time slot, for `i` up to the number
of density bins) produces, in slot `j`, the finite sum of the per-component
terms. -/
theorem accum_eq (F : ℕ → ℕ → ℝ) (T : ℕ) (n : ℕ) :
    (List.range n).foldl
        (fun eta i => eta.mapIdx (fun j v => v + F i j)) (List.replicate T (0 : ℝ))
      = (List.range T).map (fun j => ∑ i ∈ Finset.range n, F i j) := by
  induction n with
  | zero =>
    apply List.ext_getElem
    · simp
    · intro j h1 h2
      simp
  | succ n ih =>
    rw [List.range_succ, List.foldl_append, ih]
    apply List.ext_getElem
    · simp
    · intro j h1 h2
      simp only [List.foldl_cons, List.foldl_nil, List.getElem_mapIdx, List.getElem_map,
        List.getElem_range, Finset.sum_range_succ]

/-- C7: the synthesized elevation series decomposes as
`η(t_j) = Σ_i √A_i · cos(t_j·ω_i + φ_i)`, where the amplitude envelope
`√A_i = sqrtAmp freqs dens i` is a function of the spectrum alone (the
seed does not occur in it) and the seed enters only through the drawn
phases `draw seed i`.  In particular the embedding is a pure function of
`(freqs, dens, timeIdx, depth, seed)` — its only random source is the
`mt19937` generator seeded by `seed`, abstracted by `draw` — so two calls
with identical arguments produce identical sequences, and changing only
the seed leaves the envelope factors untouched. -/
theorem C7_synthesis (draw : ℤ → ℕ → ℝ) (freqs dens timeIdx : List ℝ)
    (depth : ℝ) (seed : ℤ) :
    freeSurfaceElevation draw freqs dens timeIdx depth seed
      = freeSurfaceClosedForm draw freqs dens timeIdx seed := by
  unfold freeSurfaceElevation freeSurfaceClosedForm
  rw [accum_eq]
  apply List.ext_getElem
  · simp
  · intro j h1 h2
    rw [List.getElem_map, List.getElem_map, List.getElem_range]
    apply Finset.sum_congr rfl
    intro i hi
    rw [Finset.mem_range] at hi
    have hT : j < timeIdx.length := by simpa using h2
    have hsq : ((dens.map (fun s => 2 * s * (freqs.getLastD 0 / (freqs.length : ℝ)))).map
        Real.sqrt).getD i 0 = sqrtAmp freqs dens i := by
      rw [getD_map_lt (by simpa using hi), List.getElem_map]
      unfold sqrtAmp
      rw [List.getD_eq_getElem _ _ hi]
    have hrow0 : (timeIdx.map (fun t => (freqs.map (fun x => 2 * Real.pi * x)).map
        (fun w => t * w))).getD j []
        = (freqs.map (fun x => 2 * Real.pi * x)).map (fun w => timeIdx[j] * w) := by
      rw [List.getD_eq_getElem _ _ (by simpa using hT), List.getElem_map]
    have hrow : ((freqs.map (fun x => 2 * Real.pi * x)).map
        (fun w => timeIdx[j] * w)).getD i 0
        = timeIdx[j] * (2 * Real.pi * freqs.getD i 0) := by
      by_cases hif : i < freqs.length
      · rw [getD_map_lt (by simpa using hif), List.getElem_map,
          List.getD_eq_getElem _ _ hif]
      · rw [List.getD_eq_default _ _ (by simp; omega),
          List.getD_eq_default _ _ (by omega)]
        ring
    have hph : (((List.range (freqs.map (fun x => 2 * Real.pi * x)).length).map
        (draw seed))).getD i 0 = phaseUsed draw seed freqs i := by
      unfold phaseUsed
      by_cases hif : i < freqs.length
      · rw [List.getD_eq_getElem _ _ (by simpa using hif), List.getElem_map,
          List.getElem_range, if_pos hif]
      · rw [List.getD_eq_default _ _ (by simp; omega), if_neg hif]
    rw [hsq, hrow0, hrow, hph]

theorem walkbackF_succ (fsT : List ℚ) (t : ℚ) (fuel : ℕ) (idx : ℤ) :
    walkbackF fsT t (fuel + 1) idx
      = if idx < 0 then none
        else if fsT.getD idx.toNat 0 > t then walkbackF fsT t fuel (idx - 1)
        else some idx.toNat := rfl

theorem walkback_neg {fsT : List ℚ} {t : ℚ} {idx : ℤ} (h : idx < 0) :
    walkback fsT t idx = none := by
  unfold walkback
  rw [(show idx.toNat + 2 = (idx.toNat + 1) + 1 from rfl), walkbackF_succ, if_pos h]

/-- Specification of the walk-back loop on a non-negative start index when
the history's first time does not exceed the query: it terminates at a
non-negative index `m ≤ idx` with `fsT[m] ≤ t`, and either no decrement
happened (`m = idx`) or the element above `m` is strictly greater than
`t`. -/
theorem walkbackF_spec (fsT : List ℚ) (t : ℚ) :
    ∀ (fuel : ℕ) (idx : ℤ), 0 ≤ idx → idx.toNat + 1 ≤ fuel →
      fsT.getD 0 0 ≤ t →
      ∃ m : ℕ, walkbackF fsT t fuel idx = some m ∧ (m : ℤ) ≤ idx ∧
        fsT.getD m 0 ≤ t ∧ ((m : ℤ) = idx ∨ t < fsT.getD (m + 1) 0) := by
  intro fuel
  induction fuel with
  | zero => intro idx h0 hf _; omega
  | succ n ih =>
    intro idx h0 hf ht0
    rw [walkbackF_succ, if_neg (not_lt.2 h0)]
    by_cases hgt : fsT.getD idx.toNat 0 > t
    · rw [if_pos hgt]
      have hidx1 : 0 < idx := by
        rcases lt_or_eq_of_le h0 with h | h
        · exact h
        · exfalso
          rw [← h] at hgt
          simp only [Int.toNat_zero] at hgt
          exact absurd ht0 (not_le.2 hgt)
      obtain ⟨m, hm, hle, hmt, hbr⟩ := ih (idx - 1) (by omega) (by omega) ht0
      refine ⟨m, hm, by omega, hmt, Or.inr ?_⟩
      rcases hbr with h | h
      · have : m + 1 = idx.toNat := by omega
        rw [this]
        exact hgt
      · exact h
    · rw [if_neg hgt]
      exact ⟨idx.toNat, rfl, by omega, not_lt.1 hgt, Or.inl (by omega)⟩

theorem walkback_spec {fsT : List ℚ} {t : ℚ} {idx : ℤ} (h0 : 0 ≤ idx)
    (ht0 : fsT.getD 0 0 ≤ t) :
    ∃ m : ℕ, walkback fsT t idx = some m ∧ (m : ℤ) ≤ idx ∧
      fsT.getD m 0 ≤ t ∧ ((m : ℤ) = idx ∨ t < fsT.getD (m + 1) 0) :=
  walkbackF_spec fsT t (idx.toNat + 2) idx h0 (by omega) ht0

/-- For an ascending list, the entries satisfying `· ≤ t` form a prefix:
index `i` is below the count of such entries exactly when `l[i] ≤ t`. -/
theorem countP_le_bracket {l : List ℚ} (hs : l.Sorted (· ≤ ·)) (t : ℚ) :
    ∀ i (h : i < l.length),
      (i < l.countP (fun x => decide (x ≤ t)) ↔ l[i] ≤ t) := by
  induction l with
  | nil => intro i h; cases h
  | cons a tl ih =>
    intro i h
    obtain ⟨ha, hstl⟩ := List.sorted_cons.1 hs
    by_cases hat : a ≤ t
    · rw [List.countP_cons, if_pos (by simpa using hat)]
      cases i with
      | zero =>
        simp only [List.getElem_cons_zero]
        constructor
        · intro _; exact hat
        · intro _
          have := List.countP_le_length (l := tl) (p := fun x => decide (x ≤ t))
          omega
      | succ i =>
        simp only [List.getElem_cons_succ]
        rw [← ih hstl i (by simpa using h)]
        omega
    · rw [List.countP_cons, if_neg (by simpa using hat)]
      have hz : tl.countP (fun x => decide (x ≤ t)) = 0 := by
        rw [List.countP_eq_zero]
        intro x hx
        simp only [decide_eq_true_eq]
        intro hxt
        exact hat (le_trans (ha x hx) hxt)
      rw [hz]
      constructor
      · intro hcon; omega
      · intro hle
        exfalso
        cases i with
        | zero =>
          rw [List.getElem_cons_zero] at hle
          exact hat hle
        | succ i =>
          rw [List.getElem_cons_succ] at hle
          have hi2 : i < tl.length := by
            simp only [List.length_cons] at h
            omega
          have hmem : tl[i] ∈ tl := List.getElem_mem hi2
          exact hat (le_trans (ha _ hmem) hle)

/-- Bracket property of the spec-modelled `get_lower_index` on an
ascending history: for a query strictly inside the first/last samples it
returns an index `c - 1` with `l[c-1] ≤ t < l[c]`. -/
theorem getLowerIndex_bracket {l : List ℚ} (hs : l.Sorted (· ≤ ·)) {t : ℚ}
    (hlen : 2 ≤ l.length) (hlo : l.getD 0 0 ≤ t)
    (hhi : t < l.getD (l.length - 1) 0) :
    1 ≤ l.countP (fun x => decide (x ≤ t)) ∧
    l.countP (fun x => decide (x ≤ t)) ≤ l.length - 1 ∧
    l.getD (getLowerIndex t l) 0 ≤ t ∧
    t < l.getD (getLowerIndex t l + 1) 0 := by
  have h0 : (0 : ℕ) < l.length := by omega
  have hlast : l.length - 1 < l.length := by omega
  have hc1 : 1 ≤ l.countP (fun x => decide (x ≤ t)) := by
    have := (countP_le_bracket hs t 0 h0).2
    rw [List.getD_eq_getElem _ _ h0] at hlo
    have := this hlo
    omega
  have hc2 : l.countP (fun x => decide (x ≤ t)) ≤ l.length - 1 := by
    have hiff := countP_le_bracket hs t (l.length - 1) hlast
    rw [List.getD_eq_getElem _ _ hlast] at hhi
    have : ¬ (l.length - 1 < l.countP (fun x => decide (x ≤ t))) := by
      rw [hiff]
      exact not_le.2 hhi
    omega
  have hcl : l.countP (fun x => decide (x ≤ t)) ≤ l.length :=
    List.countP_le_length _
  refine ⟨hc1, hc2, ?_, ?_⟩
  · have hlt : getLowerIndex t l < l.length := by
      unfold getLowerIndex
      omega
    have : getLowerIndex t l < l.countP (fun x => decide (x ≤ t)) := by
      unfold getLowerIndex
      omega
    rw [List.getD_eq_getElem _ _ hlt]
    exact (countP_le_bracket hs t _ hlt).1 this
  · have hlt : getLowerIndex t l + 1 < l.length := by
      unfold getLowerIndex
      omega
    have hnot : ¬ (getLowerIndex t l + 1 < l.countP (fun x => decide (x ≤ t))) := by
      unfold getLowerIndex
      omega
    rw [List.getD_eq_getElem _ _ hlt]
    by_contra hcon
    exact hnot ((countP_le_bracket hs t _ hlt).2 (not_lt.1 hcon))

theorem convLoop_nil (fsT fsE irfRow width : List ℚ) (junk time tmin tmax : ℚ)
    (idx : ℤ) (acc : ℚ) :
    convLoop fsT fsE tmin tmax irfRow width junk time [] idx acc = .ok acc := by
  simp only [convLoop]

theorem convLoop_cons_oob {fsT fsE irfRow width : List ℚ}
    {junk time tmin tmax tau : ℚ} {j : ℕ} {rest : List (ℕ × ℚ)} {idx : ℤ}
    {acc : ℚ} (hib : ¬(tmin ≤ time - tau ∧ time - tau ≤ tmax)) :
    convLoop fsT fsE tmin tmax irfRow width junk time ((j, tau) :: rest) idx acc
      = .error .domain := by
  simp only [convLoop, if_neg hib]

theorem convLoop_cons_exact1 {fsT fsE irfRow width : List ℚ}
    {junk time tmin tmax tau : ℚ} {j : ℕ} {rest : List (ℕ × ℚ)} {idx : ℤ}
    {acc : ℚ} {m : ℕ} (hib : tmin ≤ time - tau ∧ time - tau ≤ tmax)
    (hwb : walkback fsT (time - tau) idx = some m)
    (he1 : time - tau = fsT.getD m 0) :
    convLoop fsT fsE tmin tmax irfRow width junk time ((j, tau) :: rest) idx acc
      = convLoop fsT fsE tmin tmax irfRow width junk time rest (↑m)
          (acc + irfRow.getD j 0 * fsT.getD m 0 * width.getD j 0) := by
  simp only [convLoop, hwb, if_pos hib, if_pos he1]

theorem convLoop_cons_exact2 {fsT fsE irfRow width : List ℚ}
    {junk time tmin tmax tau : ℚ} {j : ℕ} {rest : List (ℕ × ℚ)} {idx : ℤ}
    {acc : ℚ} {m : ℕ} (hib : tmin ≤ time - tau ∧ time - tau ≤ tmax)
    (hwb : walkback fsT (time - tau) idx = some m)
    (he1 : ¬(time - tau = fsT.getD m 0))
    (he2 : time - tau = fsT.getD (m + 1) 0) :
    convLoop fsT fsE tmin tmax irfRow width junk time ((j, tau) :: rest) idx acc
      = convLoop fsT fsE tmin tmax irfRow width junk time rest (↑m)
          (acc + irfRow.getD j 0 * fsT.getD (m + 1) 0 * width.getD j 0) := by
  simp only [convLoop, hwb, if_pos hib, if_neg he1, if_pos he2]

theorem convLoop_cons_interior {fsT fsE irfRow width : List ℚ}
    {junk time tmin tmax tau : ℚ} {j : ℕ} {rest : List (ℕ × ℚ)} {idx : ℤ}
    {acc : ℚ} {m : ℕ} (hib : tmin ≤ time - tau ∧ time - tau ≤ tmax)
    (hwb : walkback fsT (time - tau) idx = some m)
    (he1 : ¬(time - tau = fsT.getD m 0))
    (he2 : ¬(time - tau = fsT.getD (m + 1) 0))
    (hint : fsT.getD m 0 < time - tau ∧ time - tau < fsT.getD (m + 1) 0) :
    convLoop fsT fsE tmin tmax irfRow width junk time ((j, tau) :: rest) idx acc
      = convLoop fsT fsE tmin tmax irfRow width junk time rest (↑m)
          (acc + irfRow.getD j 0 * junk * width.getD j 0) := by
  simp only [convLoop, hwb, if_pos hib, if_neg he1, if_neg he2, if_pos hint]

/-- The central loop invariant of `ExcitationConvolution` for a history of
at least two samples: walking the ascending IRF lags with the cursor never
fails.  Both directions of C2 follow: if some remaining lag leaves the
window the loop returns the `domain` error (aborting with no partial sum
observable), and if every remaining lag is inside the window the loop
returns a value.  The cursor invariant carried along: `idx` is between `0`
and `length - 2`, and the next in-window lag does not exceed
`fsT[idx + 1]`. -/
theorem convLoop_spec (fsT fsE irfRow width : List ℚ) (junk time : ℚ) :
    ∀ (l : List (ℕ × ℚ)) (idx : ℤ) (acc : ℚ),
      (l.map Prod.snd).Sorted (· ≤ ·) →
      (∀ p ∈ l.head?, 0 ≤ idx ∧ idx ≤ (fsT.length : ℤ) - 2 ∧
        (fsT.headD 0 ≤ time - p.2 → time - p.2 ≤ fsT.getLastD 0 →
          time - p.2 ≤ fsT.getD (idx.toNat + 1) 0)) →
      ((∀ p ∈ l, fsT.headD 0 ≤ time - p.2 ∧ time - p.2 ≤ fsT.getLastD 0) →
        ∃ v, convLoop fsT fsE (fsT.headD 0) (fsT.getLastD 0) irfRow width
          junk time l idx acc = .ok v) ∧
      (¬(∀ p ∈ l, fsT.headD 0 ≤ time - p.2 ∧ time - p.2 ≤ fsT.getLastD 0) →
        convLoop fsT fsE (fsT.headD 0) (fsT.getLastD 0) irfRow width
          junk time l idx acc = .error .domain) := by
  intro l
  induction l with
  | nil =>
    intro idx acc _ _
    constructor
    · intro _
      exact ⟨acc, convLoop_nil _ _ _ _ _ _ _ _ _ _⟩
    · intro hn
      exact absurd (by simp) hn
  | cons p rest ih =>
    obtain ⟨j, tau⟩ := p
    intro idx acc hsort hinv
    obtain ⟨h0, hle2, hup⟩ := hinv (j, tau) (by simp)
    by_cases hib : fsT.headD 0 ≤ time - tau ∧ time - tau ≤ fsT.getLastD 0
    · -- the head lag is inside the window: the cursor walk succeeds
      have ht0 : fsT.getD 0 0 ≤ time - tau := by
        rw [← headD_eq_getD]
        exact hib.1
      obtain ⟨m, hwb, hmle, hmt, hbr⟩ := walkback_spec h0 ht0
      have hup2 : time - tau ≤ fsT.getD (m + 1) 0 := by
        rcases hbr with he | hlt
        · have hm : m = idx.toNat := by omega
          rw [hm]
          exact hup hib.1 hib.2
        · exact le_of_lt hlt
      -- the continuation state after this element
      have hnext : ∀ acc2 : ℚ,
          ((rest.map Prod.snd).Sorted (· ≤ ·)) ∧
          (∀ p ∈ rest.head?, 0 ≤ (m : ℤ) ∧ (m : ℤ) ≤ (fsT.length : ℤ) - 2 ∧
            (fsT.headD 0 ≤ time - p.2 → time - p.2 ≤ fsT.getLastD 0 →
              time - p.2 ≤ fsT.getD ((m : ℤ).toNat + 1) 0)) := by
        intro acc2
        rw [List.map_cons, List.sorted_cons] at hsort
        refine ⟨hsort.2, ?_⟩
        intro q hq
        have hqmem : q ∈ rest := List.mem_of_mem_head? hq
        have htau_q : tau ≤ q.2 := hsort.1 q.2 (List.mem_map_of_mem Prod.snd hqmem)
        refine ⟨by omega, by omega, ?_⟩
        intro _ _
        have : time - q.2 ≤ time - tau := by linarith
        rw [Int.toNat_natCast]
        exact le_trans this hup2
      have hstep : ∃ acc2 : ℚ,
          convLoop fsT fsE (fsT.headD 0) (fsT.getLastD 0) irfRow width junk time
            ((j, tau) :: rest) idx acc
          = convLoop fsT fsE (fsT.headD 0) (fsT.getLastD 0) irfRow width junk time
            rest (↑m) acc2 := by
        by_cases he1 : time - tau = fsT.getD m 0
        · exact ⟨_, convLoop_cons_exact1 hib hwb he1⟩
        · by_cases he2 : time - tau = fsT.getD (m + 1) 0
          · exact ⟨_, convLoop_cons_exact2 hib hwb he1 he2⟩
          · refine ⟨_, convLoop_cons_interior hib hwb he1 he2 ?_⟩
            exact ⟨lt_of_le_of_ne hmt (fun h => he1 h.symm),
                   lt_of_le_of_ne hup2 he2⟩
      obtain ⟨acc2, hstep⟩ := hstep
      obtain ⟨hsort2, hinv2⟩ := hnext acc2
      obtain ⟨hok, herr⟩ := ih (↑m) acc2 hsort2 hinv2
      constructor
      · intro hall
        rw [hstep]
        exact hok (fun q hq => hall q (List.mem_cons_of_mem _ hq))
      · intro hnall
        rw [hstep]
        apply herr
        intro hallrest
        apply hnall
        intro q hq
        rcases List.mem_cons.1 hq with rfl | hq2
        · exact hib
        · exact hallrest q hq2
    · -- the head lag leaves the window: the loop aborts with DomainError
      constructor
      · intro hall
        exact absurd (hall (j, tau) (List.mem_cons_self _ _)) hib
      · intro _
        exact convLoop_cons_oob hib

theorem excitationConvolution_eq (fsT fsE irfT irfRow width : List ℚ)
    (junk time : ℚ) :
    excitationConvolution fsT fsE irfT irfRow width junk time
      = convLoop fsT fsE (fsT.headD 0) (fsT.getLastD 0) irfRow width junk time
          irfT.enum
          (if time - irfT.getD 0 0 ≤ fsT.headD 0 then 0
           else if time - irfT.getD 0 0 ≥ fsT.getLastD 0 then (fsT.length : ℤ) - 2
           else (getLowerIndex (time - irfT.getD 0 0) fsT : ℤ)) 0 := by
  simp only [excitationConvolution]

theorem enum_snd_mem {α : Type} {l : List α} {p : ℕ × α} (hp : p ∈ l.enum) :
    p.2 ∈ l := by
  have := List.mem_map_of_mem Prod.snd hp
  rwa [List.enum_map_snd] at this

/-- Establishing the cursor's initial invariant from the three-way branch
on `t - τ₀` (wave_types.cpp:548-555), for a history of at least two
samples. -/
theorem initial_invariant (fsT irfT : List ℚ) (time : ℚ)
    (hs : fsT.Sorted (· ≤ ·)) (hlen : 2 ≤ fsT.length) :
    ∀ p ∈ irfT.enum.head?,
      (0 : ℤ) ≤ (if time - irfT.getD 0 0 ≤ fsT.headD 0 then 0
           else if time - irfT.getD 0 0 ≥ fsT.getLastD 0 then (fsT.length : ℤ) - 2
           else (getLowerIndex (time - irfT.getD 0 0) fsT : ℤ)) ∧
      (if time - irfT.getD 0 0 ≤ fsT.headD 0 then 0
           else if time - irfT.getD 0 0 ≥ fsT.getLastD 0 then (fsT.length : ℤ) - 2
           else (getLowerIndex (time - irfT.getD 0 0) fsT : ℤ)) ≤ (fsT.length : ℤ) - 2 ∧
      (fsT.headD 0 ≤ time - p.2 → time - p.2 ≤ fsT.getLastD 0 →
        time - p.2 ≤ fsT.getD ((if time - irfT.getD 0 0 ≤ fsT.headD 0 then 0
           else if time - irfT.getD 0 0 ≥ fsT.getLastD 0 then (fsT.length : ℤ) - 2
           else (getLowerIndex (time - irfT.getD 0 0) fsT : ℤ)).toNat + 1) 0) := by
  intro p hp
  cases irfT with
  | nil => simp [List.enum] at hp
  | cons tau0 restT =>
    have hp0 : p = (0, tau0) := by
      rw [List.enum_cons, List.head?_cons] at hp
      exact (by simpa using hp : (0, tau0) = p).symm
    subst hp0
    simp only [List.getD_cons_zero]
    by_cases hc1 : time - tau0 ≤ fsT.headD 0
    · simp only [if_pos hc1]
      refine ⟨le_refl 0, by omega, ?_⟩
      intro h1 _
      have hstep : fsT.getD 0 0 ≤ fsT.getD 1 0 :=
        sorted_getD_mono hs (by omega) (by omega) 0
      rw [headD_eq_getD] at hc1
      simp only [Int.toNat_zero]
      exact le_trans hc1 hstep
    · by_cases hc2 : time - tau0 ≥ fsT.getLastD 0
      · simp only [if_neg hc1, if_pos hc2]
        refine ⟨by omega, by omega, ?_⟩
        intro _ h2
        have htn : ((fsT.length : ℤ) - 2).toNat = fsT.length - 2 := by omega
        rw [htn, (show fsT.length - 2 + 1 = fsT.length - 1 by omega)]
        rw [getLastD_eq_getD] at h2
        exact h2
      · simp only [if_neg hc1, if_neg hc2]
        have hlo : fsT.getD 0 0 ≤ time - tau0 := by
          rw [← headD_eq_getD]
          exact le_of_lt (lt_of_not_le hc1)
        have hhi : time - tau0 < fsT.getD (fsT.length - 1) 0 := by
          rw [← getLastD_eq_getD]
          exact lt_of_not_le (fun h => hc2 h)
        obtain ⟨hb1, hb2, hbr1, hbr2⟩ := getLowerIndex_bracket hs hlen hlo hhi
        have hg : getLowerIndex (time - tau0) fsT
            = fsT.countP (fun x => decide (x ≤ time - tau0)) - 1 := rfl
        refine ⟨by omega, by omega, ?_⟩
        intro _ _
        rw [Int.toNat_natCast]
        exact le_of_lt hbr2

theorem conv_ok_or_domain (fsT fsE irfT irfRow width : List ℚ) (junk time : ℚ)
    (hs : fsT.Sorted (· ≤ ·)) (hi : irfT.Sorted (· ≤ ·))
    (hlen : 2 ≤ fsT.length) :
    ((∀ τ ∈ irfT, fsT.headD 0 ≤ time - τ ∧ time - τ ≤ fsT.getLastD 0) →
      ∃ v, excitationConvolution fsT fsE irfT irfRow width junk time = .ok v) ∧
    ((∃ τ ∈ irfT, time - τ < fsT.headD 0 ∨ fsT.getLastD 0 < time - τ) →
      excitationConvolution fsT fsE irfT irfRow width junk time
        = .error .domain) := by
  have hsort_enum : (irfT.enum.map Prod.snd).Sorted (· ≤ ·) := by
    rw [List.enum_map_snd]
    exact hi
  have hinv := initial_invariant fsT irfT time hs hlen
  obtain ⟨hok, herr⟩ :=
    convLoop_spec fsT fsE irfRow width junk time irfT.enum _ 0 hsort_enum hinv
  rw [excitationConvolution_eq]
  constructor
  · intro hall
    exact hok (fun p hp => hall p.2 (enum_snd_mem hp))
  · rintro ⟨τ, hτ, hbad⟩
    apply herr
    intro hallp
    have hτe : τ ∈ irfT.enum.map Prod.snd := by
      rw [List.enum_map_snd]
      exact hτ
    obtain ⟨p, hp, hps⟩ := List.mem_map.1 hτe
    have hin := hallp p hp
    rw [hps] at hin
    rcases hbad with h | h
    · linarith [hin.1]
    · linarith [hin.2]

theorem convLoop_single (fsE irfRow width : List ℚ) (junk time a : ℚ) :
    ∀ (l : List (ℕ × ℚ)) (acc : ℚ), (∀ p ∈ l, time - p.2 = a) →
      ∃ v, convLoop [a] fsE a a irfRow width junk time l 0 acc = .ok v := by
  intro l
  induction l with
  | nil =>
    intro acc _
    exact ⟨acc, convLoop_nil _ _ _ _ _ _ _ _ _ _⟩
  | cons p rest ih =>
    obtain ⟨j, tau⟩ := p
    intro acc hall
    have he : time - tau = a := hall (j, tau) (List.mem_cons_self _ _)
    have hib : a ≤ time - tau ∧ time - tau ≤ a := by
      rw [he]
      exact ⟨le_refl a, le_refl a⟩
    have hwb : walkback [a] (time - tau) 0 = some 0 := by
      unfold walkback
      rw [(show ((0 : ℤ).toNat + 2) = 1 + 1 from rfl), walkbackF_succ,
        if_neg (by omega : ¬((0 : ℤ) < 0))]
      have hno : ¬((([a] : List ℚ).getD (0 : ℤ).toNat 0) > time - tau) := by
        rw [he]
        exact lt_irrefl a
      rw [if_neg hno]
      rfl
    have he1 : time - tau = ([a] : List ℚ).getD 0 0 := by
      rw [he]
      rfl
    have hstep := @convLoop_cons_exact1 [a] fsE irfRow width junk time a a tau
      j rest 0 acc 0 hib hwb he1
    rw [Nat.cast_zero] at hstep
    rw [hstep]
    exact ih _ (fun q hq => hall q (List.mem_cons_of_mem _ hq))

theorem conv_single_ok (fsE irfRow width irfT : List ℚ) (junk time a : ℚ)
    (hall : ∀ τ ∈ irfT, ([a] : List ℚ).headD 0 ≤ time - τ ∧
      time - τ ≤ ([a] : List ℚ).getLastD 0) :
    ∃ v, excitationConvolution [a] fsE irfT irfRow width junk time = .ok v := by
  have ha : ∀ τ ∈ irfT, time - τ = a := by
    intro τ hτ
    have h := hall τ hτ
    have h1 : ([a] : List ℚ).headD 0 = a := rfl
    have h2 : ([a] : List ℚ).getLastD 0 = a := rfl
    rw [h1] at h
    rw [h2] at h
    linarith [h.1, h.2]
  rw [excitationConvolution_eq]
  cases irfT with
  | nil =>
    exact ⟨0, convLoop_nil _ _ _ _ _ _ _ _ _ _⟩
  | cons τ0 restT =>
    have hτ0 : time - τ0 = a := ha τ0 (List.mem_cons_self _ _)
    have hcond : time - (τ0 :: restT).getD 0 0 ≤ ([a] : List ℚ).headD 0 := by
      rw [List.getD_cons_zero, hτ0]
      exact le_refl a
    rw [if_pos hcond]
    exact convLoop_single fsE irfRow width junk time a ((τ0 :: restT).enum) 0
      (fun p hp => ha p.2 (enum_snd_mem hp))

theorem conv_no_negIdx (fsT fsE irfT irfRow width : List ℚ) (junk time : ℚ)
    (hs : fsT.Sorted (· ≤ ·)) (hi : irfT.Sorted (· ≤ ·))
    (hlen : 1 ≤ fsT.length)
    (hall : ∀ τ ∈ irfT, fsT.headD 0 ≤ time - τ ∧ time - τ ≤ fsT.getLastD 0) :
    excitationConvolution fsT fsE irfT irfRow width junk time
      ≠ .error .negIdx := by
  by_cases h2 : 2 ≤ fsT.length
  · obtain ⟨v, hv⟩ :=
      (conv_ok_or_domain fsT fsE irfT irfRow width junk time hs hi h2).1 hall
    rw [hv]
    simp
  · have h1 : fsT.length = 1 := by omega
    obtain ⟨a, rfl⟩ := List.length_eq_one.1 h1
    obtain ⟨v, hv⟩ := conv_single_ok fsE irfRow width irfT junk time a hall
    rw [hv]
    simp

/-- C2: for an ascending history of at least two samples and an ascending
IRF grid, if any lag `t - τ_j` falls outside the history window
`[min, max]`, `ExcitationConvolution` aborts with the `DomainError`
(`Except.error .domain` — no partially summed force is observable, the
error carries no value); conversely, if every lag lies inside the window
the call returns a value and raises no error. -/
theorem C2_convolution_domain (fsT fsE irfT irfRow width : List ℚ)
    (junk time : ℚ) (hs : fsT.Sorted (· ≤ ·)) (hi : irfT.Sorted (· ≤ ·))
    (hlen : 2 ≤ fsT.length) :
    ((∃ τ ∈ irfT, time - τ < fsT.headD 0 ∨ fsT.getLastD 0 < time - τ) →
      excitationConvolution fsT fsE irfT irfRow width junk time
        = .error .domain) ∧
    ((∀ τ ∈ irfT, fsT.headD 0 ≤ time - τ ∧ time - τ ≤ fsT.getLastD 0) →
      ∃ v, excitationConvolution fsT fsE irfT irfRow width junk time
        = .ok v) :=
  ⟨(conv_ok_or_domain fsT fsE irfT irfRow width junk time hs hi hlen).2,
   (conv_ok_or_domain fsT fsE irfT irfRow width junk time hs hi hlen).1⟩

/-- C2 (witness): history times `[0, 1]`, single IRF lag `τ = 0`, query
time `5`: the lag `5` exceeds the window maximum `1` and the call returns
`DomainError`. -/
theorem C2_convolution_domain_witness :
    excitationConvolution [0, 1] [5, 7] [0] [1] [1] 0 5 = .error .domain :=
  (C2_convolution_domain [0, 1] [5, 7] [0] [1] [1] 0 5
    (by norm_num [List.sorted_cons]) (by simp) (by norm_num)).1
    ⟨0, by simp, Or.inr (by norm_num [List.getLastD_cons, List.getLastD])⟩

/-- C8 (counterexample, proving the claim's negation): there is **no**
ascending free-surface history (of any positive length), ascending IRF
grid, and query time with every lag inside the window, for which the
cursor walk-back loop of `ExcitationConvolution` reads the history at a
negative index (`.error .negIdx` marks exactly that read in the
embedding): the in-window guard `tmin ≤ t - τ` forces the unclamped
`idx -= 1` walk to stop at index `0` at the latest, so the surrounding
bounds checks do make the decrement safe. -/
theorem C8_counterexample :
    ¬ ∃ (fsT fsE irfT irfRow width : List ℚ) (junk time : ℚ),
        fsT.Sorted (· ≤ ·) ∧ irfT.Sorted (· ≤ ·) ∧ 1 ≤ fsT.length ∧
        (∀ τ ∈ irfT, fsT.headD 0 ≤ time - τ ∧ time - τ ≤ fsT.getLastD 0) ∧
        excitationConvolution fsT fsE irfT irfRow width junk time
          = .error .negIdx := by
  rintro ⟨fsT, fsE, irfT, irfRow, width, junk, time, hs, hi, hlen, hall, heq⟩
  exact conv_no_negIdx fsT fsE irfT irfRow width junk time hs hi hlen hall heq

/-- C8 (amended): for every ascending nonempty free-surface history,
ascending IRF grid, and query whose every lag lies inside the history
window, the walk-back loop never accesses the history at a negative index:
the in-window bounds check guarantees `fsT[0] ≤ t - τ`, which clamps the
unbounded `idx -= 1` at index `0`, so the decrement is in fact made safe
by the surrounding checks rather than being a latent defect under these
conditions. -/
theorem C8_no_negative_access (fsT fsE irfT irfRow width : List ℚ)
    (junk time : ℚ) (hs : fsT.Sorted (· ≤ ·)) (hi : irfT.Sorted (· ≤ ·))
    (hlen : 1 ≤ fsT.length)
    (hall : ∀ τ ∈ irfT, fsT.headD 0 ≤ time - τ ∧ time - τ ≤ fsT.getLastD 0) :
    excitationConvolution fsT fsE irfT irfRow width junk time
      ≠ .error .negIdx :=
  conv_no_negIdx fsT fsE irfT irfRow width junk time hs hi hlen hall

/-- C8 (witness): the amended theorem at the concrete in-window query of
the C1 failing input. -/
theorem C8_no_negative_access_witness :
    excitationConvolution [0, 1] [5, 7] [0, 1] [1, 1] [1/2, 1/2] 0 1
      ≠ .error .negIdx :=
  C8_no_negative_access [0, 1] [5, 7] [0, 1] [1, 1] [1/2, 1/2] 0 1
    (by norm_num [List.sorted_cons]) (by norm_num [List.sorted_cons])
    (by norm_num)
    (by
      intro τ hτ
      rcases List.mem_cons.1 hτ with rfl | hτ2
      · norm_num [List.headD, List.getLastD_cons, List.getLastD]
      · rcases List.mem_cons.1 hτ2 with rfl | hτ3
        · norm_num [List.headD, List.getLastD_cons, List.getLastD]
        · cases hτ3)

end HydroChrono
